import Mathlib

/-!
Verification of the quaternion rotation core `core/vnl/vnl_quaternion.txx`
of the Probabilistic-Volumetric-3D-Reconstruction repository.

The C++ code is a template over a floating scalar type `T`; it is embedded
here over the exact reals `ℝ`.  Vectors `vnl_vector_fixed<T,3>` become the
record `Vec3`, the fixed matrices become `Mat3x3` / `Mat4x4`, and
`vnl_quaternion<T>` becomes the four-field record `vnl_quaternion` with the
source layout: three imaginary components first, the real component last.
`vcl_atan2` is modelled by the argument of the complex number `x + y·i`,
which is the exact-arithmetic contract of the C library `atan2`.
`vcl_numeric_limits<T>::epsilon()` has no exact-real counterpart, so the
operations that read it take the epsilon value as an explicit parameter.
-/

noncomputable section

/-- `vnl_vector_fixed<T,3>`: a 3-component real vector. -/
@[ext]
structure Vec3 where
  x : ℝ
  y : ℝ
  z : ℝ

namespace Vec3

/-- Componentwise vector sum (`operator+` of the vnl vector base). -/
def add (a b : Vec3) : Vec3 := ⟨a.x + b.x, a.y + b.y, a.z + b.z⟩

/-- Componentwise vector difference (`operator-` of the vnl vector base). -/
def sub (a b : Vec3) : Vec3 := ⟨a.x - b.x, a.y - b.y, a.z - b.z⟩

/-- Scalar multiple (`operator*` of the vnl vector base). -/
def smul (c : ℝ) (v : Vec3) : Vec3 := ⟨c * v.x, c * v.y, c * v.z⟩

/-- `dot_product` on 3-vectors: sum of the componentwise products. -/
def dot (a b : Vec3) : ℝ := a.x * b.x + a.y * b.y + a.z * b.z

/-- `vnl_cross_3d`: the standard 3-dimensional cross product. -/
def cross (a b : Vec3) : Vec3 :=
  ⟨a.y * b.z - a.z * b.y, a.z * b.x - a.x * b.z, a.x * b.y - a.y * b.x⟩

/-- `magnitude()` of a vnl vector: square root of the sum of squares. -/
def magnitude (v : Vec3) : ℝ := Real.sqrt (v.x * v.x + v.y * v.y + v.z * v.z)

end Vec3

/-- `vnl_matrix_fixed<T,3,3>`; field `mij` is the entry at row `i`, column `j`. -/
@[ext]
structure Mat3x3 where
  m00 : ℝ
  m01 : ℝ
  m02 : ℝ
  m10 : ℝ
  m11 : ℝ
  m12 : ℝ
  m20 : ℝ
  m21 : ℝ
  m22 : ℝ

namespace Mat3x3

/-- `transpose()` of a fixed 3×3 matrix. -/
def transposed (m : Mat3x3) : Mat3x3 :=
  ⟨m.m00, m.m10, m.m20, m.m01, m.m11, m.m21, m.m02, m.m12, m.m22⟩

/-- Standard action of a 3×3 matrix on a column 3-vector (rows dotted with `v`). -/
def mulVec (m : Mat3x3) (v : Vec3) : Vec3 :=
  ⟨m.m00 * v.x + m.m01 * v.y + m.m02 * v.z,
   m.m10 * v.x + m.m11 * v.y + m.m12 * v.z,
   m.m20 * v.x + m.m21 * v.y + m.m22 * v.z⟩

end Mat3x3

/-- `vnl_matrix_fixed<T,4,4>`; field `mij` is the entry at row `i`, column `j`. -/
@[ext]
structure Mat4x4 where
  m00 : ℝ
  m01 : ℝ
  m02 : ℝ
  m03 : ℝ
  m10 : ℝ
  m11 : ℝ
  m12 : ℝ
  m13 : ℝ
  m20 : ℝ
  m21 : ℝ
  m22 : ℝ
  m23 : ℝ
  m30 : ℝ
  m31 : ℝ
  m32 : ℝ
  m33 : ℝ

/-- `vcl_atan2(y, x)` in exact arithmetic: the argument of the complex
number `x + y·i`, valued in `(-π, π]`. -/
def atan2 (y x : ℝ) : ℝ := Complex.arg ⟨x, y⟩

/-- `vnl_quaternion<T>`: components `x, y, z` are the imaginary part,
`r` is the real part (source layout: real part stored last). -/
@[ext]
structure vnl_quaternion where
  x : ℝ
  y : ℝ
  z : ℝ
  r : ℝ

namespace vnl_quaternion

/-- `imaginary()`: the first three components, as a 3-vector. -/
def imaginary (q : vnl_quaternion) : Vec3 := ⟨q.x, q.y, q.z⟩

/-- Negation of a quaternion (entrywise `operator-` of the vnl vector base). -/
def neg (q : vnl_quaternion) : vnl_quaternion := ⟨-q.x, -q.y, -q.z, -q.r⟩

/-- The squared 4-component Euclidean norm
`vnl_c_vector<T>::dot_product(data_, data_, 4)`. -/
def normSq (q : vnl_quaternion) : ℝ := q.x * q.x + q.y * q.y + q.z * q.z + q.r * q.r

/-- Constructor `vnl_quaternion(vnl_vector_fixed<T,3> const& vec)`:
embeds a 3-vector as a pure-imaginary quaternion. -/
def fromVec (v : Vec3) : vnl_quaternion := ⟨v.x, v.y, v.z, 0⟩

/-- Constructor `vnl_quaternion(axis, angle)`: imaginary part is the sine of
the half angle times the axis, real part the cosine of the half angle. -/
def fromAxisAngle (axis : Vec3) (angle : ℝ) : vnl_quaternion :=
  let a := angle * 0.5
  let s := Real.sin a
  ⟨s * axis.x, s * axis.y, s * axis.z, Real.cos a⟩

/-- Constructor `vnl_quaternion(vnl_matrix_fixed<T,3,3> const& rot)`:
diagonal terms select the dominant component, off-diagonal sums and
differences give the rest, normalized by `sqrt(term * 4)`. -/
def fromRotationMatrix (rot : Mat3x3) : vnl_quaternion :=
  let d0 := rot.m00
  let d1 := rot.m11
  let d2 := rot.m22
  let xx := 1 + d0 - d1 - d2
  let yy := 1 - d0 + d1 - d2
  let zz := 1 - d0 - d1 + d2
  let rr := 1 + d0 + d1 + d2
  let max1 := rr
  let max2 := if xx > max1 then xx else max1
  let max3 := if yy > max2 then yy else max2
  let max4 := if zz > max3 then zz else max3
  if rr = max4 then
    let r4 := Real.sqrt (rr * 4)
    ⟨(rot.m12 - rot.m21) / r4, (rot.m20 - rot.m02) / r4, (rot.m01 - rot.m10) / r4, r4 / 4⟩
  else if xx = max4 then
    let x4 := Real.sqrt (xx * 4)
    ⟨x4 / 4, (rot.m01 + rot.m10) / x4, (rot.m02 + rot.m20) / x4, (rot.m12 - rot.m21) / x4⟩
  else if yy = max4 then
    let y4 := Real.sqrt (yy * 4)
    ⟨(rot.m01 + rot.m10) / y4, y4 / 4, (rot.m12 + rot.m21) / y4, (rot.m20 - rot.m02) / y4⟩
  else
    let z4 := Real.sqrt (zz * 4)
    ⟨(rot.m02 + rot.m20) / z4, (rot.m12 + rot.m21) / z4, z4 / 4, (rot.m01 - rot.m10) / z4⟩

/-- `operator*`: quaternion product, real part `r1·r2 − dot(i1,i2)`,
imaginary part `cross(i1,i2) + r1·i2 + r2·i1`. -/
def mul (q1 q2 : vnl_quaternion) : vnl_quaternion :=
  let r1 := q1.r
  let r2 := q2.r
  let i1 := q1.imaginary
  let i2 := q2.imaginary
  let real_v := r1 * r2 - Vec3.dot i1 i2
  let img := (Vec3.cross i1 i2).add ((Vec3.smul r1 i2).add (Vec3.smul r2 i1))
  ⟨img.x, img.y, img.z, real_v⟩

/-- Constructor `vnl_quaternion(theta_X, theta_Y, theta_Z)`: the product
`Rz * Ry * Rx` of the three single-axis half-angle quaternions
(C++ `Rz * Ry * Rx` associates as `(Rz * Ry) * Rx`). -/
def fromEuler (theta_X theta_Y theta_Z : ℝ) : vnl_quaternion :=
  let Rx : vnl_quaternion := ⟨Real.sin (theta_X * 0.5), 0, 0, Real.cos (theta_X * 0.5)⟩
  let Ry : vnl_quaternion := ⟨0, Real.sin (theta_Y * 0.5), 0, Real.cos (theta_Y * 0.5)⟩
  let Rz : vnl_quaternion := ⟨0, 0, Real.sin (theta_Z * 0.5), Real.cos (theta_Z * 0.5)⟩
  mul (mul Rz Ry) Rx

/-- `rotation_matrix_transpose()`: the quaternion-to-matrix formula of the source. -/
def rotation_matrix_transpose (q : vnl_quaternion) : Mat3x3 :=
  let x2 := q.x * q.x
  let xy := q.x * q.y
  let rx := q.r * q.x
  let y2 := q.y * q.y
  let yz := q.y * q.z
  let ry := q.r * q.y
  let z2 := q.z * q.z
  let zx := q.z * q.x
  let rz := q.r * q.z
  let r2 := q.r * q.r
  { m00 := r2 + x2 - y2 - z2
    m11 := r2 - x2 + y2 - z2
    m22 := r2 - x2 - y2 + z2
    m01 := 2 * (xy + rz)
    m02 := 2 * (zx - ry)
    m12 := 2 * (yz + rx)
    m10 := 2 * (xy - rz)
    m20 := 2 * (zx + ry)
    m21 := 2 * (yz - rx) }

/-- `rotation_matrix_transpose_4()`: the 3×3 rotation embedded in a 4×4
identity matrix (`set_identity` then `update` at the top-left block). -/
def rotation_matrix_transpose_4 (q : vnl_quaternion) : Mat4x4 :=
  let rot := q.rotation_matrix_transpose
  { m00 := rot.m00, m01 := rot.m01, m02 := rot.m02, m03 := 0
    m10 := rot.m10, m11 := rot.m11, m12 := rot.m12, m13 := 0
    m20 := rot.m20, m21 := rot.m21, m22 := rot.m22, m23 := 0
    m30 := 0, m31 := 0, m32 := 0, m33 := 1 }

/-- `rotation_euler_angles()`: Euler angles read off the transposed rotation
matrix, with the gimbal-lock branch on `xy ≤ epsilon * 8`.  The machine
epsilon of the scalar type is passed as the parameter `eps`. -/
def rotation_euler_angles (eps : ℝ) (q : vnl_quaternion) : Vec3 :=
  let rotM := q.rotation_matrix_transpose_4
  let xy := Real.sqrt (rotM.m00 * rotM.m00 + rotM.m01 * rotM.m01)
  if xy > eps * 8 then
    ⟨atan2 rotM.m12 rotM.m22, atan2 (-rotM.m02) xy, atan2 rotM.m01 rotM.m00⟩
  else
    ⟨atan2 (-rotM.m21) rotM.m11, atan2 (-rotM.m02) xy, 0⟩

/-- `angle()`: twice the arctangent of the imaginary magnitude over the real part. -/
def angle (q : vnl_quaternion) : ℝ :=
  2 * atan2 (q.imaginary.magnitude) q.r

/-- `axis()` together with its diagnostic: the second component records
whether the degenerate-axis message was printed.  A zero-magnitude
imaginary part yields the fallback axis `(0,0,1)` (the source writes `1`
into the third slot of the zero vector); otherwise the imaginary part is
divided componentwise by its magnitude. -/
def axisD (q : vnl_quaternion) : Vec3 × Bool :=
  let direc := q.imaginary
  let mag := direc.magnitude
  if mag = 0 then
    (⟨direc.x, direc.y, 1⟩, true)
  else
    (⟨direc.x / mag, direc.y / mag, direc.z / mag⟩, false)

/-- `axis()`: the vector returned to the caller. -/
def axis (q : vnl_quaternion) : Vec3 := (q.axisD).1

/-- `conjugate()`: same real part, opposite imaginary part. -/
def conjugate (q : vnl_quaternion) : vnl_quaternion := ⟨-q.x, -q.y, -q.z, q.r⟩

/-- `inverse()`: the conjugate divided componentwise by the squared 4-vector norm. -/
def inverse (q : vnl_quaternion) : vnl_quaternion :=
  let inv := q.conjugate
  let n := q.x * q.x + q.y * q.y + q.z * q.z + q.r * q.r
  ⟨inv.x / n, inv.y / n, inv.z / n, inv.r / n⟩

/-- `rotate(v)`: the matrix-free rotation formula
`v + (i × v) * 2r − ((i × v) × i) * 2` of the source. -/
def rotate (q : vnl_quaternion) (v : Vec3) : Vec3 :=
  let r := q.r
  let i := q.imaginary
  let i_x_v := Vec3.cross i v
  (v.add (Vec3.smul (2 * r) i_x_v)).sub (Vec3.smul 2 (Vec3.cross i_x_v i))

end vnl_quaternion

open vnl_quaternion

/-- `atan2` recovers the angle from a positively scaled sine/cosine pair. -/
lemma atan2_smul_sin_cos (c θ : ℝ) (hc : 0 < c) (hθ : θ ∈ Set.Ioc (-Real.pi) Real.pi) :
    atan2 (c * Real.sin θ) (c * Real.cos θ) = θ := by
  unfold atan2
  have h1 : (⟨c * Real.cos θ, c * Real.sin θ⟩ : ℂ) = (c : ℂ) * ⟨Real.cos θ, Real.sin θ⟩ := by
    apply Complex.ext <;> simp [Complex.mul_re, Complex.mul_im]
  rw [h1, Complex.arg_real_mul _ hc, Complex.mk_eq_add_mul_I, Complex.ofReal_cos,
    Complex.ofReal_sin, Complex.arg_cos_add_sin_mul_I hθ]

/-- The vnl vector magnitude vanishes exactly on the zero vector. -/
lemma Vec3.magnitude_eq_zero_iff (v : Vec3) : v.magnitude = 0 ↔ v = ⟨0, 0, 0⟩ := by
  unfold Vec3.magnitude
  constructor
  · intro h
    have hsum : v.x * v.x + v.y * v.y + v.z * v.z ≤ 0 := Real.sqrt_eq_zero'.mp h
    have hx : v.x = 0 := mul_self_eq_zero.mp
      (le_antisymm (by nlinarith [mul_self_nonneg v.y, mul_self_nonneg v.z])
        (mul_self_nonneg v.x))
    have hy : v.y = 0 := mul_self_eq_zero.mp
      (le_antisymm (by nlinarith [mul_self_nonneg v.x, mul_self_nonneg v.z])
        (mul_self_nonneg v.y))
    have hz : v.z = 0 := mul_self_eq_zero.mp
      (le_antisymm (by nlinarith [mul_self_nonneg v.x, mul_self_nonneg v.y])
        (mul_self_nonneg v.z))
    exact Vec3.ext hx hy hz
  · rintro rfl
    norm_num

/-- The source quaternion product is associative. -/
lemma mul_assoc_q (a b c : vnl_quaternion) : (a.mul b).mul c = a.mul (b.mul c) := by
  ext <;> simp [mul, imaginary, Vec3.cross, Vec3.add, Vec3.smul, Vec3.dot] <;> ring

/-- Conjugation is an antihomomorphism of the source product. -/
lemma conj_mul_q (a b : vnl_quaternion) :
    (a.mul b).conjugate = (b.conjugate).mul (a.conjugate) := by
  ext <;> simp [mul, conjugate, imaginary, Vec3.cross, Vec3.add, Vec3.smul, Vec3.dot] <;> ring

/-- The squared 4-vector norm is multiplicative for the source product. -/
lemma normSq_mul_q (a b : vnl_quaternion) : (a.mul b).normSq = a.normSq * b.normSq := by
  simp [mul, normSq, imaginary, Vec3.cross, Vec3.add, Vec3.smul, Vec3.dot]
  ring

/-- The sandwich product `q * (0,v) * conjugate q` built from source operations. -/
def sandwich (q : vnl_quaternion) (v : Vec3) : vnl_quaternion :=
  (q.mul (fromVec v)).mul q.conjugate

/-- Sandwiching by `q2` after sandwiching by `q1` is sandwiching by
`q2 * q1`: a consequence of associativity of the product and the
antihomomorphism property of conjugation, with no norm hypothesis. -/
lemma sandwich_sandwich (q1 q2 : vnl_quaternion) (v : Vec3) :
    sandwich q2 ((sandwich q1 v).imaginary) = sandwich (q2.mul q1) v := by
  ext <;> simp [sandwich, mul, fromVec, conjugate, imaginary,
    Vec3.cross, Vec3.add, Vec3.smul, Vec3.dot] <;> ring

/-- For a unit quaternion the source `rotate` formula agrees with the
imaginary part of the sandwich product. -/
lemma rotate_eq_sandwich (q : vnl_quaternion) (v : Vec3) (h : q.normSq = 1) :
    q.rotate v = (sandwich q v).imaginary := by
  have h' : q.x * q.x + q.y * q.y + q.z * q.z + q.r * q.r = 1 := h
  apply Vec3.ext
  · simp [rotate, sandwich, mul, fromVec, conjugate, imaginary,
      Vec3.cross, Vec3.add, Vec3.sub, Vec3.smul, Vec3.dot]
    linear_combination (-(v.x)) * h'
  · simp [rotate, sandwich, mul, fromVec, conjugate, imaginary,
      Vec3.cross, Vec3.add, Vec3.sub, Vec3.smul, Vec3.dot]
    linear_combination (-(v.y)) * h'
  · simp [rotate, sandwich, mul, fromVec, conjugate, imaginary,
      Vec3.cross, Vec3.add, Vec3.sub, Vec3.smul, Vec3.dot]
    linear_combination (-(v.z)) * h'

/-- C2: for unit quaternions `q1`, `q2` and any vector `v`, rotating by `q1`
and then by `q2` equals rotating once by the product `q2 * q1`, where the
product has real part `r1·r2 − dot(i1,i2)` and imaginary part
`cross(i1,i2) + r1·i2 + r2·i1`. -/
theorem c2_rotate_composition (q1 q2 : vnl_quaternion) (v : Vec3)
    (h1 : q1.normSq = 1) (h2 : q2.normSq = 1) :
    q2.rotate (q1.rotate v) = (q2.mul q1).rotate v := by
  rw [rotate_eq_sandwich q1 v h1, rotate_eq_sandwich q2 _ h2,
    rotate_eq_sandwich (q2.mul q1) v (by rw [normSq_mul_q, h1, h2]; norm_num)]
  rw [sandwich_sandwich]

/-- C2 witness: the identity rotation composed with itself. -/
theorem c2_rotate_composition_witness :
    normSq ⟨0, 0, 0, 1⟩ = 1 ∧
    rotate ⟨0, 0, 0, 1⟩ (rotate ⟨0, 0, 0, 1⟩ ⟨1, 2, 3⟩) =
      rotate (mul ⟨0, 0, 0, 1⟩ ⟨0, 0, 0, 1⟩) ⟨1, 2, 3⟩ :=
  ⟨by norm_num [normSq],
   c2_rotate_composition ⟨0, 0, 0, 1⟩ ⟨0, 0, 0, 1⟩ ⟨1, 2, 3⟩
     (by norm_num [normSq]) (by norm_num [normSq])⟩

/-- C3: for a unit quaternion, the matrix-free `rotate` formula computes the
same vector as multiplying by the transpose of `rotation_matrix_transpose`. -/
theorem c3_rotate_matrix_consistency (q : vnl_quaternion) (v : Vec3) (h : q.normSq = 1) :
    q.rotate v = ((q.rotation_matrix_transpose).transposed).mulVec v := by
  have h' : q.x * q.x + q.y * q.y + q.z * q.z + q.r * q.r = 1 := h
  apply Vec3.ext
  · simp [rotate, rotation_matrix_transpose, Mat3x3.transposed, Mat3x3.mulVec,
      imaginary, Vec3.cross, Vec3.add, Vec3.sub, Vec3.smul]
    linear_combination (-(v.x)) * h'
  · simp [rotate, rotation_matrix_transpose, Mat3x3.transposed, Mat3x3.mulVec,
      imaginary, Vec3.cross, Vec3.add, Vec3.sub, Vec3.smul]
    linear_combination (-(v.y)) * h'
  · simp [rotate, rotation_matrix_transpose, Mat3x3.transposed, Mat3x3.mulVec,
      imaginary, Vec3.cross, Vec3.add, Vec3.sub, Vec3.smul]
    linear_combination (-(v.z)) * h'

/-- C3 witness: the identity rotation applied to `(1,2,3)`. -/
theorem c3_rotate_matrix_consistency_witness :
    normSq ⟨0, 0, 0, 1⟩ = 1 ∧
    rotate ⟨0, 0, 0, 1⟩ ⟨1, 2, 3⟩ =
      ((rotation_matrix_transpose ⟨0, 0, 0, 1⟩).transposed).mulVec ⟨1, 2, 3⟩ :=
  ⟨by norm_num [normSq],
   c3_rotate_matrix_consistency ⟨0, 0, 0, 1⟩ ⟨1, 2, 3⟩ (by norm_num [normSq])⟩

/-- C8: `axis()` is total: a quaternion with exactly zero imaginary part
yields the fallback `(0,0,1)` together with the diagnostic flag, and any
other quaternion yields its imaginary part divided by its magnitude, with
no diagnostic. -/
theorem c8_axis_total_behavior (q : vnl_quaternion) :
    (q.imaginary = ⟨0, 0, 0⟩ → q.axisD = (⟨0, 0, 1⟩, true)) ∧
    (q.imaginary ≠ ⟨0, 0, 0⟩ →
      q.axisD = (⟨q.x / q.imaginary.magnitude, q.y / q.imaginary.magnitude,
        q.z / q.imaginary.magnitude⟩, false)) := by
  constructor
  · intro h
    have hx : q.x = 0 := congrArg Vec3.x h
    have hy : q.y = 0 := congrArg Vec3.y h
    have hz : q.z = 0 := congrArg Vec3.z h
    simp [axisD, imaginary, Vec3.magnitude, hx, hy, hz, Real.sqrt_zero]
  · intro h
    have hm : q.imaginary.magnitude ≠ 0 := fun h0 => h ((Vec3.magnitude_eq_zero_iff _).mp h0)
    simp only [axisD, imaginary] at hm ⊢
    rw [if_neg hm]

/-- C8 witness: the identity quaternion takes the degenerate branch. -/
theorem c8_axis_total_behavior_witness :
    axisD ⟨0, 0, 0, 1⟩ = (⟨0, 0, 1⟩, true) :=
  (c8_axis_total_behavior ⟨0, 0, 0, 1⟩).1 rfl

/-- C9: on unit quaternions `inverse()` coincides with `conjugate()`. -/
theorem c9_inverse_eq_conjugate (q : vnl_quaternion) (h : q.normSq = 1) :
    q.inverse = q.conjugate := by
  have h' : q.x * q.x + q.y * q.y + q.z * q.z + q.r * q.r = 1 := h
  ext <;> simp [inverse, conjugate, h']

/-- C9 witness: the identity quaternion. -/
theorem c9_inverse_eq_conjugate_witness :
    inverse ⟨0, 0, 0, 1⟩ = conjugate ⟨0, 0, 0, 1⟩ :=
  c9_inverse_eq_conjugate ⟨0, 0, 0, 1⟩ (by norm_num [normSq])

/-- C10: the squared 4-component norm of a product of two arbitrary
quaternions is the product of their squared norms; in particular the
product of unit quaternions is a unit quaternion. -/
theorem c10_normSq_mul (q1 q2 : vnl_quaternion) :
    (q1.mul q2).normSq = q1.normSq * q2.normSq :=
  normSq_mul_q q1 q2

/-- The matrix-to-quaternion branch selection exactly as the spec words it:
the numerically largest of `{rr, xx, yy, zz}`, ties broken in the order
`rr`, then `xx`, then `yy`, then `zz`; all four components derive from the
selected branch with the `4·sqrt(term)` normalization. -/
def fromRotationMatrixSpec (rot : Mat3x3) : vnl_quaternion :=
  let xx := 1 + rot.m00 - rot.m11 - rot.m22
  let yy := 1 - rot.m00 + rot.m11 - rot.m22
  let zz := 1 - rot.m00 - rot.m11 + rot.m22
  let rr := 1 + rot.m00 + rot.m11 + rot.m22
  if rr ≥ xx ∧ rr ≥ yy ∧ rr ≥ zz then
    let r4 := Real.sqrt (rr * 4)
    ⟨(rot.m12 - rot.m21) / r4, (rot.m20 - rot.m02) / r4, (rot.m01 - rot.m10) / r4, r4 / 4⟩
  else if xx ≥ yy ∧ xx ≥ zz then
    let x4 := Real.sqrt (xx * 4)
    ⟨x4 / 4, (rot.m01 + rot.m10) / x4, (rot.m02 + rot.m20) / x4, (rot.m12 - rot.m21) / x4⟩
  else if yy ≥ zz then
    let y4 := Real.sqrt (yy * 4)
    ⟨(rot.m01 + rot.m10) / y4, y4 / 4, (rot.m12 + rot.m21) / y4, (rot.m20 - rot.m02) / y4⟩
  else
    let z4 := Real.sqrt (zz * 4)
    ⟨(rot.m02 + rot.m20) / z4, (rot.m12 + rot.m21) / z4, z4 / 4, (rot.m01 - rot.m10) / z4⟩

/-- The diagonal term the spec's selection rule picks for a given matrix. -/
def selectedDiagTerm (rot : Mat3x3) : ℝ :=
  let xx := 1 + rot.m00 - rot.m11 - rot.m22
  let yy := 1 - rot.m00 + rot.m11 - rot.m22
  let zz := 1 - rot.m00 - rot.m11 + rot.m22
  let rr := 1 + rot.m00 + rot.m11 + rot.m22
  if rr ≥ xx ∧ rr ≥ yy ∧ rr ≥ zz then rr
  else if xx ≥ yy ∧ xx ≥ zz then xx
  else if yy ≥ zz then yy
  else zz

/-- The source's running-maximum branch dispatch coincides with the spec's
largest-with-tie-order selection, for every input matrix. -/
lemma fromRotationMatrix_eq_spec (rot : Mat3x3) :
    fromRotationMatrix rot = fromRotationMatrixSpec rot := by
  simp only [fromRotationMatrix, fromRotationMatrixSpec]
  set xx := 1 + rot.m00 - rot.m11 - rot.m22 with hxx
  set yy := 1 - rot.m00 + rot.m11 - rot.m22 with hyy
  set zz := 1 - rot.m00 - rot.m11 + rot.m22 with hzz
  set rr := 1 + rot.m00 + rot.m11 + rot.m22 with hrr
  set m2 := if xx > rr then xx else rr with hm2
  set m3 := if yy > m2 then yy else m2 with hm3
  set m4 := if zz > m3 then zz else m3 with hm4
  have h2a : rr ≤ m2 := by rw [hm2]; split_ifs with h <;> linarith
  have h2b : xx ≤ m2 := by rw [hm2]; split_ifs with h <;> linarith
  have h2c : m2 = xx ∨ m2 = rr := by rw [hm2]; split_ifs with h <;> simp
  have h3a : m2 ≤ m3 := by rw [hm3]; split_ifs with h <;> linarith
  have h3b : yy ≤ m3 := by rw [hm3]; split_ifs with h <;> linarith
  have h3c : m3 = yy ∨ m3 = m2 := by rw [hm3]; split_ifs with h <;> simp
  have h4a : m3 ≤ m4 := by rw [hm4]; split_ifs with h <;> linarith
  have h4b : zz ≤ m4 := by rw [hm4]; split_ifs with h <;> linarith
  have h4c : m4 = zz ∨ m4 = m3 := by rw [hm4]; split_ifs with h <;> simp
  have hr4 : rr ≤ m4 := le_trans h2a (le_trans h3a h4a)
  have hx4 : xx ≤ m4 := le_trans h2b (le_trans h3a h4a)
  have hy4 : yy ≤ m4 := le_trans h3b h4a
  have hcases : m4 = rr ∨ m4 = xx ∨ m4 = yy ∨ m4 = zz := by
    rcases h4c with h | h
    · exact Or.inr (Or.inr (Or.inr h))
    · rcases h3c with h3 | h3
      · exact Or.inr (Or.inr (Or.inl (h.trans h3)))
      · rcases h2c with h2 | h2
        · exact Or.inr (Or.inl ((h.trans h3).trans h2))
        · exact Or.inl ((h.trans h3).trans h2)
  have e1 : (rr = m4) ↔ (rr ≥ xx ∧ rr ≥ yy ∧ rr ≥ zz) := by
    constructor
    · intro h
      exact ⟨by linarith, by linarith, by linarith⟩
    · intro ⟨ha, hb, hc⟩
      refine le_antisymm hr4 ?_
      rcases hcases with h | h | h | h <;> rw [h] <;> linarith
  by_cases hs1 : rr ≥ xx ∧ rr ≥ yy ∧ rr ≥ zz
  · rw [if_pos (e1.mpr hs1), if_pos hs1]
  · rw [if_neg (fun hh => hs1 (e1.mp hh)), if_neg hs1]
    have hc1 : ¬(rr = m4) := fun hh => hs1 (e1.mp hh)
    have e2 : (xx = m4) ↔ (xx ≥ yy ∧ xx ≥ zz) := by
      constructor
      · intro h
        exact ⟨by linarith, by linarith⟩
      · intro ⟨ha, hb⟩
        refine le_antisymm hx4 ?_
        rcases hcases with h | h | h | h
        · exact absurd h.symm hc1
        · rw [h]
        · rw [h]; linarith
        · rw [h]; linarith
    by_cases hs2 : xx ≥ yy ∧ xx ≥ zz
    · rw [if_pos (e2.mpr hs2), if_pos hs2]
    · rw [if_neg (fun hh => hs2 (e2.mp hh)), if_neg hs2]
      have hc2 : ¬(xx = m4) := fun hh => hs2 (e2.mp hh)
      have e3 : (yy = m4) ↔ (yy ≥ zz) := by
        constructor
        · intro h
          linarith
        · intro ha
          refine le_antisymm hy4 ?_
          rcases hcases with h | h | h | h
          · exact absurd h.symm hc1
          · exact absurd h.symm hc2
          · rw [h]
          · rw [h]; linarith
      by_cases hs3 : yy ≥ zz
      · rw [if_pos (e3.mpr hs3), if_pos hs3]
      · rw [if_neg (fun hh => hs3 (e3.mp hh)), if_neg hs3]

/-- C4: the matrix constructor computes the four diagonal terms
`xx, yy, zz, rr`, selects the numerically largest with ties broken in the
order `rr`, `xx`, `yy`, `zz`, and derives all four components from that
branch, for every matrix whose selected term is positive. -/
theorem c4_from_matrix_branch_selection (rot : Mat3x3)
    (h : 0 < selectedDiagTerm rot) :
    fromRotationMatrix rot = fromRotationMatrixSpec rot :=
  fromRotationMatrix_eq_spec rot

/-- C4 witness: the identity matrix, whose selected term is `rr = 4`. -/
theorem c4_from_matrix_branch_selection_witness :
    0 < selectedDiagTerm ⟨1, 0, 0, 0, 1, 0, 0, 0, 1⟩ ∧
    fromRotationMatrix ⟨1, 0, 0, 0, 1, 0, 0, 0, 1⟩ =
      fromRotationMatrixSpec ⟨1, 0, 0, 0, 1, 0, 0, 0, 1⟩ :=
  ⟨by norm_num [selectedDiagTerm],
   c4_from_matrix_branch_selection ⟨1, 0, 0, 0, 1, 0, 0, 0, 1⟩
     (by norm_num [selectedDiagTerm])⟩

/-- C1 (amended): feeding `rotation_matrix_transpose(q)` itself (the
constructor expects the already-transposed matrix) back into the matrix
constructor recovers the unit quaternion `q` up to sign. -/
theorem c1_round_trip_matrix_quaternion_amended (q : vnl_quaternion) (h : q.normSq = 1) :
    fromRotationMatrix q.rotation_matrix_transpose = q ∨
    fromRotationMatrix q.rotation_matrix_transpose = q.neg := by
  obtain ⟨qx, qy, qz, qr⟩ := q
  have h' : qx * qx + qy * qy + qz * qz + qr * qr = 1 := h
  rw [fromRotationMatrix_eq_spec]
  simp only [fromRotationMatrixSpec, rotation_matrix_transpose, neg]
  split_ifs with hs1 hs2 hs3
  · rw [show (1 + (qr * qr + qx * qx - qy * qy - qz * qz) +
        (qr * qr - qx * qx + qy * qy - qz * qz) +
        (qr * qr - qx * qx - qy * qy + qz * qz)) * 4 = (4 * qr) ^ 2 by
          linear_combination (-4) * h', Real.sqrt_sq_eq_abs]
    rcases lt_trichotomy qr 0 with hr | hr | hr
    · right
      rw [abs_of_neg (by linarith : 4 * qr < 0)]
      simp only [vnl_quaternion.mk.injEq]
      refine ⟨?_, ?_, ?_, ?_⟩
      · rw [div_eq_iff (ne_of_gt (by linarith : (0:ℝ) < -(4 * qr)))]; ring
      · rw [div_eq_iff (ne_of_gt (by linarith : (0:ℝ) < -(4 * qr)))]; ring
      · rw [div_eq_iff (ne_of_gt (by linarith : (0:ℝ) < -(4 * qr)))]; ring
      · ring
    · exfalso
      have hr2 : qr * qr = 0 := by rw [hr]; ring
      linarith [hs1.1, hs1.2.1, hs1.2.2, mul_self_nonneg qx, mul_self_nonneg qy,
        mul_self_nonneg qz]
    · left
      rw [abs_of_pos (by linarith : (0:ℝ) < 4 * qr)]
      simp only [vnl_quaternion.mk.injEq]
      refine ⟨?_, ?_, ?_, ?_⟩
      · rw [div_eq_iff (ne_of_gt (by linarith : (0:ℝ) < 4 * qr))]; ring
      · rw [div_eq_iff (ne_of_gt (by linarith : (0:ℝ) < 4 * qr))]; ring
      · rw [div_eq_iff (ne_of_gt (by linarith : (0:ℝ) < 4 * qr))]; ring
      · ring
  · rw [show (1 + (qr * qr + qx * qx - qy * qy - qz * qz) -
        (qr * qr - qx * qx + qy * qy - qz * qz) -
        (qr * qr - qx * qx - qy * qy + qz * qz)) * 4 = (4 * qx) ^ 2 by
          linear_combination (-4) * h', Real.sqrt_sq_eq_abs]
    rcases lt_trichotomy qx 0 with hx | hx | hx
    · right
      rw [abs_of_neg (by linarith : 4 * qx < 0)]
      simp only [vnl_quaternion.mk.injEq]
      refine ⟨?_, ?_, ?_, ?_⟩
      · ring
      · rw [div_eq_iff (ne_of_gt (by linarith : (0:ℝ) < -(4 * qx)))]; ring
      · rw [div_eq_iff (ne_of_gt (by linarith : (0:ℝ) < -(4 * qx)))]; ring
      · rw [div_eq_iff (ne_of_gt (by linarith : (0:ℝ) < -(4 * qx)))]; ring
    · exfalso
      have hx2 : qx * qx = 0 := by rw [hx]; ring
      have hy2 : qy * qy = 0 :=
        le_antisymm (by linarith [hs2.1]) (mul_self_nonneg qy)
      have hz2 : qz * qz = 0 :=
        le_antisymm (by linarith [hs2.2]) (mul_self_nonneg qz)
      exact hs1 ⟨by linarith, by linarith, by linarith⟩
    · left
      rw [abs_of_pos (by linarith : (0:ℝ) < 4 * qx)]
      simp only [vnl_quaternion.mk.injEq]
      refine ⟨?_, ?_, ?_, ?_⟩
      · ring
      · rw [div_eq_iff (ne_of_gt (by linarith : (0:ℝ) < 4 * qx))]; ring
      · rw [div_eq_iff (ne_of_gt (by linarith : (0:ℝ) < 4 * qx))]; ring
      · rw [div_eq_iff (ne_of_gt (by linarith : (0:ℝ) < 4 * qx))]; ring
  · rw [show (1 - (qr * qr + qx * qx - qy * qy - qz * qz) +
        (qr * qr - qx * qx + qy * qy - qz * qz) -
        (qr * qr - qx * qx - qy * qy + qz * qz)) * 4 = (4 * qy) ^ 2 by
          linear_combination (-4) * h', Real.sqrt_sq_eq_abs]
    rcases lt_trichotomy qy 0 with hy | hy | hy
    · right
      rw [abs_of_neg (by linarith : 4 * qy < 0)]
      simp only [vnl_quaternion.mk.injEq]
      refine ⟨?_, ?_, ?_, ?_⟩
      · rw [div_eq_iff (ne_of_gt (by linarith : (0:ℝ) < -(4 * qy)))]; ring
      · ring
      · rw [div_eq_iff (ne_of_gt (by linarith : (0:ℝ) < -(4 * qy)))]; ring
      · rw [div_eq_iff (ne_of_gt (by linarith : (0:ℝ) < -(4 * qy)))]; ring
    · exfalso
      have hy2 : qy * qy = 0 := by rw [hy]; ring
      have hz2 : qz * qz = 0 :=
        le_antisymm (by linarith [hs3]) (mul_self_nonneg qz)
      exact hs2 ⟨by linarith [mul_self_nonneg qx], by linarith [mul_self_nonneg qx]⟩
    · left
      rw [abs_of_pos (by linarith : (0:ℝ) < 4 * qy)]
      simp only [vnl_quaternion.mk.injEq]
      refine ⟨?_, ?_, ?_, ?_⟩
      · rw [div_eq_iff (ne_of_gt (by linarith : (0:ℝ) < 4 * qy))]; ring
      · ring
      · rw [div_eq_iff (ne_of_gt (by linarith : (0:ℝ) < 4 * qy))]; ring
      · rw [div_eq_iff (ne_of_gt (by linarith : (0:ℝ) < 4 * qy))]; ring
  · rw [show (1 - (qr * qr + qx * qx - qy * qy - qz * qz) -
        (qr * qr - qx * qx + qy * qy - qz * qz) +
        (qr * qr - qx * qx - qy * qy + qz * qz)) * 4 = (4 * qz) ^ 2 by
          linear_combination (-4) * h', Real.sqrt_sq_eq_abs]
    rcases lt_trichotomy qz 0 with hz | hz | hz
    · right
      rw [abs_of_neg (by linarith : 4 * qz < 0)]
      simp only [vnl_quaternion.mk.injEq]
      refine ⟨?_, ?_, ?_, ?_⟩
      · rw [div_eq_iff (ne_of_gt (by linarith : (0:ℝ) < -(4 * qz)))]; ring
      · rw [div_eq_iff (ne_of_gt (by linarith : (0:ℝ) < -(4 * qz)))]; ring
      · ring
      · rw [div_eq_iff (ne_of_gt (by linarith : (0:ℝ) < -(4 * qz)))]; ring
    · exfalso
      have hz2 : qz * qz = 0 := by rw [hz]; ring
      exact hs3 (by linarith [mul_self_nonneg qy])
    · left
      rw [abs_of_pos (by linarith : (0:ℝ) < 4 * qz)]
      simp only [vnl_quaternion.mk.injEq]
      refine ⟨?_, ?_, ?_, ?_⟩
      · rw [div_eq_iff (ne_of_gt (by linarith : (0:ℝ) < 4 * qz))]; ring
      · rw [div_eq_iff (ne_of_gt (by linarith : (0:ℝ) < 4 * qz))]; ring
      · ring
      · rw [div_eq_iff (ne_of_gt (by linarith : (0:ℝ) < 4 * qz))]; ring

/-- C1 (amended) witness: the identity quaternion. -/
theorem c1_round_trip_matrix_quaternion_amended_witness :
    normSq ⟨0, 0, 0, 1⟩ = 1 ∧
    (fromRotationMatrix (rotation_matrix_transpose ⟨0, 0, 0, 1⟩) = ⟨0, 0, 0, 1⟩ ∨
     fromRotationMatrix (rotation_matrix_transpose ⟨0, 0, 0, 1⟩) = neg ⟨0, 0, 0, 1⟩) :=
  ⟨by norm_num [normSq],
   c1_round_trip_matrix_quaternion_amended ⟨0, 0, 0, 1⟩ (by norm_num [normSq])⟩

/-- C1 counterexample: for the unit quaternion `q = (1/2, 1/2, 1/2, 1/2)`,
constructing from the transpose of `rotation_matrix_transpose(q)` yields
the conjugate `(-1/2, -1/2, -1/2, 1/2)`, which is neither `q` nor `-q`:
the claimed round trip with an extra `.transposed()` fails. -/
theorem c1_round_trip_transposed_counterexample :
    normSq ⟨1/2, 1/2, 1/2, 1/2⟩ = 1 ∧
    fromRotationMatrix ((rotation_matrix_transpose ⟨1/2, 1/2, 1/2, 1/2⟩).transposed) =
      ⟨-(1/2), -(1/2), -(1/2), 1/2⟩ ∧
    fromRotationMatrix ((rotation_matrix_transpose ⟨1/2, 1/2, 1/2, 1/2⟩).transposed) ≠
      ⟨1/2, 1/2, 1/2, 1/2⟩ ∧
    fromRotationMatrix ((rotation_matrix_transpose ⟨1/2, 1/2, 1/2, 1/2⟩).transposed) ≠
      neg ⟨1/2, 1/2, 1/2, 1/2⟩ := by
  have hs4 : Real.sqrt 4 = 2 := by
    rw [show (4:ℝ) = 2 ^ 2 by norm_num, Real.sqrt_sq (by norm_num)]
  have key : fromRotationMatrix ((rotation_matrix_transpose ⟨1/2, 1/2, 1/2, 1/2⟩).transposed) =
      ⟨-(1/2), -(1/2), -(1/2), 1/2⟩ := by
    norm_num [fromRotationMatrix, rotation_matrix_transpose, Mat3x3.transposed, hs4,
      vnl_quaternion.mk.injEq]
  refine ⟨by norm_num [normSq], key, ?_, ?_⟩
  · rw [key]
    norm_num [vnl_quaternion.mk.injEq]
  · rw [key]
    norm_num [neg, vnl_quaternion.mk.injEq]

/-- The Euler extraction exactly as the spec words it, reading the entries
`mij` of the transposed rotation matrix: `xy = sqrt(m00² + m01²)`; above
`8·eps` the non-degenerate branch `(atan2(m12,m22), atan2(−m02,xy),
atan2(m01,m00))`, otherwise `(atan2(−m21,m11), atan2(−m02,xy), 0)`. -/
def rotationEulerAnglesSpec (eps : ℝ) (q : vnl_quaternion) : Vec3 :=
  let m := q.rotation_matrix_transpose
  let xy := Real.sqrt (m.m00 ^ 2 + m.m01 ^ 2)
  if xy > 8 * eps then
    ⟨atan2 m.m12 m.m22, atan2 (-m.m02) xy, atan2 m.m01 m.m00⟩
  else
    ⟨atan2 (-m.m21) m.m11, atan2 (-m.m02) xy, 0⟩

/-- The source Euler extraction, which goes through the 4×4 homogeneous
matrix, computes exactly the spec's 3×3 formulas. -/
lemma rotation_euler_angles_eq_spec (eps : ℝ) (q : vnl_quaternion) :
    rotation_euler_angles eps q = rotationEulerAnglesSpec eps q := by
  simp only [rotation_euler_angles, rotationEulerAnglesSpec, rotation_matrix_transpose_4]
  rw [show q.rotation_matrix_transpose.m00 * q.rotation_matrix_transpose.m00 +
      q.rotation_matrix_transpose.m01 * q.rotation_matrix_transpose.m01 =
      q.rotation_matrix_transpose.m00 ^ 2 + q.rotation_matrix_transpose.m01 ^ 2 by ring,
    mul_comm eps 8]

/-- C5: `rotation_euler_angles` computes `xy = sqrt(m00² + m01²)` from the
transposed rotation matrix and returns `(atan2(m12,m22), atan2(−m02,xy),
atan2(m01,m00))` when `xy` exceeds `8·eps`, and `(atan2(−m21,m11),
atan2(−m02,xy), 0)` otherwise. -/
theorem c5_euler_angles_formula (eps : ℝ) (q : vnl_quaternion) :
    rotation_euler_angles eps q = rotationEulerAnglesSpec eps q :=
  rotation_euler_angles_eq_spec eps q

/-- C7 counterexample: at `angle = 0` (an allowed input of the claim) the
axis read-back returns the fallback `(0,0,1)`, not the original axis
`(1,0,0)`: the claimed round trip fails at the lower endpoint. -/
theorem c7_axis_angle_counterexample :
    Vec3.magnitude ⟨1, 0, 0⟩ = 1 ∧ (0:ℝ) ∈ Set.Icc 0 Real.pi ∧
    axis (fromAxisAngle ⟨1, 0, 0⟩ 0) = ⟨0, 0, 1⟩ ∧
    axis (fromAxisAngle ⟨1, 0, 0⟩ 0) ≠ ⟨1, 0, 0⟩ := by
  have hq : fromAxisAngle ⟨1, 0, 0⟩ 0 = ⟨0, 0, 0, 1⟩ := by
    norm_num [fromAxisAngle, Real.sin_zero, Real.cos_zero, vnl_quaternion.mk.injEq]
  have hax : axis (⟨0, 0, 0, 1⟩ : vnl_quaternion) = ⟨0, 0, 1⟩ := by
    norm_num [axis, axisD, imaginary, Vec3.magnitude, Real.sqrt_zero]
  refine ⟨?_, ⟨le_refl 0, Real.pi_nonneg⟩, ?_, ?_⟩
  · norm_num [Vec3.magnitude, Real.sqrt_one]
  · rw [hq, hax]
  · rw [hq, hax]
    norm_num [Vec3.mk.injEq]

/-- C7 (amended): for a unit axis and an angle in the half-open interval
`(0, π]`, constructing from `(axis, angle)` and reading back `angle()` and
`axis()` reproduces the original pair. -/
theorem c7_axis_angle_round_trip_amended (ax : Vec3) (θ : ℝ)
    (hunit : ax.magnitude = 1) (h0 : 0 < θ) (hpi : θ ≤ Real.pi) :
    angle (fromAxisAngle ax θ) = θ ∧ axis (fromAxisAngle ax θ) = ax := by
  have hnn : 0 ≤ ax.x * ax.x + ax.y * ax.y + ax.z * ax.z := by
    nlinarith [mul_self_nonneg ax.x, mul_self_nonneg ax.y, mul_self_nonneg ax.z]
  have hsum : ax.x * ax.x + ax.y * ax.y + ax.z * ax.z = 1 := by
    have hm : Real.sqrt (ax.x * ax.x + ax.y * ax.y + ax.z * ax.z) = 1 := hunit
    have h2 := Real.sq_sqrt hnn
    rw [hm] at h2
    norm_num at h2
    exact h2.symm
  have hhalf0 : 0 < θ * 0.5 := by linarith
  have hhalfpi : θ * 0.5 < Real.pi := by linarith [Real.pi_pos]
  have hs_pos : 0 < Real.sin (θ * 0.5) := Real.sin_pos_of_pos_of_lt_pi hhalf0 hhalfpi
  have hmag : (fromAxisAngle ax θ).imaginary.magnitude = Real.sin (θ * 0.5) := by
    simp only [fromAxisAngle, imaginary, Vec3.magnitude]
    rw [show Real.sin (θ * 0.5) * ax.x * (Real.sin (θ * 0.5) * ax.x) +
        Real.sin (θ * 0.5) * ax.y * (Real.sin (θ * 0.5) * ax.y) +
        Real.sin (θ * 0.5) * ax.z * (Real.sin (θ * 0.5) * ax.z) =
        Real.sin (θ * 0.5) ^ 2 * (ax.x * ax.x + ax.y * ax.y + ax.z * ax.z) by ring,
      hsum, mul_one, Real.sqrt_sq hs_pos.le]
  constructor
  · simp only [angle]
    rw [hmag]
    simp only [fromAxisAngle]
    have ha := atan2_smul_sin_cos 1 (θ * 0.5) one_pos
      ⟨by linarith [Real.pi_pos], by linarith⟩
    rw [one_mul, one_mul] at ha
    rw [ha]
    ring
  · simp only [axis, axisD, hmag]
    rw [if_neg hs_pos.ne']
    simp only [fromAxisAngle, imaginary]
    exact Vec3.ext (mul_div_cancel_left₀ _ hs_pos.ne') (mul_div_cancel_left₀ _ hs_pos.ne')
      (mul_div_cancel_left₀ _ hs_pos.ne')

/-- C7 (amended) witness: the x-axis with angle `π`. -/
theorem c7_axis_angle_round_trip_amended_witness :
    Vec3.magnitude ⟨1, 0, 0⟩ = 1 ∧ 0 < Real.pi ∧ Real.pi ≤ Real.pi ∧
    (angle (fromAxisAngle ⟨1, 0, 0⟩ Real.pi) = Real.pi ∧
     axis (fromAxisAngle ⟨1, 0, 0⟩ Real.pi) = ⟨1, 0, 0⟩) :=
  ⟨by norm_num [Vec3.magnitude, Real.sqrt_one], Real.pi_pos, le_refl _,
   c7_axis_angle_round_trip_amended ⟨1, 0, 0⟩ Real.pi
     (by norm_num [Vec3.magnitude, Real.sqrt_one]) Real.pi_pos (le_refl _)⟩

/-- Full-angle sine from the half-angle values used by the constructors. -/
lemma sin_eq_double_half (t : ℝ) :
    Real.sin t = 2 * Real.sin (t * 0.5) * Real.cos (t * 0.5) := by
  have h := Real.sin_two_mul (t * 0.5)
  rw [show 2 * (t * 0.5) = t by ring] at h
  linarith

/-- Full-angle cosine from the half-angle values used by the constructors. -/
lemma cos_eq_double_half (t : ℝ) :
    Real.cos t = Real.cos (t * 0.5) ^ 2 - Real.sin (t * 0.5) ^ 2 := by
  have h := Real.cos_two_mul (t * 0.5)
  rw [show 2 * (t * 0.5) = t by ring] at h
  have h2 := Real.sin_sq_add_cos_sq (t * 0.5)
  linarith

/-- Entry `m00` of the transposed rotation matrix of an Euler-constructed
quaternion: `cos θy · cos θz`. -/
lemma fromEuler_m00 (tx ty tz : ℝ) :
    (rotation_matrix_transpose (fromEuler tx ty tz)).m00 = Real.cos ty * Real.cos tz := by
  have hX := Real.sin_sq_add_cos_sq (tx * 0.5)
  rw [cos_eq_double_half ty, cos_eq_double_half tz]
  simp only [rotation_matrix_transpose, fromEuler, mul, imaginary,
    Vec3.cross, Vec3.add, Vec3.smul, Vec3.dot]
  linear_combination ((Real.cos (ty * 0.5) ^ 2 - Real.sin (ty * 0.5) ^ 2) *
    (Real.cos (tz * 0.5) ^ 2 - Real.sin (tz * 0.5) ^ 2)) * hX

/-- Entry `m01` of the transposed rotation matrix of an Euler-constructed
quaternion: `cos θy · sin θz`. -/
lemma fromEuler_m01 (tx ty tz : ℝ) :
    (rotation_matrix_transpose (fromEuler tx ty tz)).m01 = Real.cos ty * Real.sin tz := by
  have hX := Real.sin_sq_add_cos_sq (tx * 0.5)
  rw [cos_eq_double_half ty, sin_eq_double_half tz]
  simp only [rotation_matrix_transpose, fromEuler, mul, imaginary,
    Vec3.cross, Vec3.add, Vec3.smul, Vec3.dot]
  linear_combination (2 * Real.cos (tz * 0.5) * Real.sin (tz * 0.5) *
    (Real.cos (ty * 0.5) ^ 2 - Real.sin (ty * 0.5) ^ 2)) * hX

/-- Entry `m02` of the transposed rotation matrix of an Euler-constructed
quaternion: `−sin θy`. -/
lemma fromEuler_m02 (tx ty tz : ℝ) :
    (rotation_matrix_transpose (fromEuler tx ty tz)).m02 = -Real.sin ty := by
  have hX := Real.sin_sq_add_cos_sq (tx * 0.5)
  have hZ := Real.sin_sq_add_cos_sq (tz * 0.5)
  rw [sin_eq_double_half ty]
  simp only [rotation_matrix_transpose, fromEuler, mul, imaginary,
    Vec3.cross, Vec3.add, Vec3.smul, Vec3.dot]
  linear_combination (-2 * Real.cos (ty * 0.5) * Real.sin (ty * 0.5) *
    (Real.cos (tz * 0.5) ^ 2 + Real.sin (tz * 0.5) ^ 2)) * hX +
    (-2 * Real.cos (ty * 0.5) * Real.sin (ty * 0.5)) * hZ

/-- Entry `m12` of the transposed rotation matrix of an Euler-constructed
quaternion: `sin θx · cos θy`. -/
lemma fromEuler_m12 (tx ty tz : ℝ) :
    (rotation_matrix_transpose (fromEuler tx ty tz)).m12 = Real.sin tx * Real.cos ty := by
  have hZ := Real.sin_sq_add_cos_sq (tz * 0.5)
  rw [sin_eq_double_half tx, cos_eq_double_half ty]
  simp only [rotation_matrix_transpose, fromEuler, mul, imaginary,
    Vec3.cross, Vec3.add, Vec3.smul, Vec3.dot]
  linear_combination (2 * Real.sin (tx * 0.5) * Real.cos (tx * 0.5) *
    (Real.cos (ty * 0.5) ^ 2 - Real.sin (ty * 0.5) ^ 2)) * hZ

/-- Entry `m22` of the transposed rotation matrix of an Euler-constructed
quaternion: `cos θx · cos θy`. -/
lemma fromEuler_m22 (tx ty tz : ℝ) :
    (rotation_matrix_transpose (fromEuler tx ty tz)).m22 = Real.cos tx * Real.cos ty := by
  have hZ := Real.sin_sq_add_cos_sq (tz * 0.5)
  rw [cos_eq_double_half tx, cos_eq_double_half ty]
  simp only [rotation_matrix_transpose, fromEuler, mul, imaginary,
    Vec3.cross, Vec3.add, Vec3.smul, Vec3.dot]
  linear_combination ((Real.cos (tx * 0.5) ^ 2 - Real.sin (tx * 0.5) ^ 2) *
    (Real.cos (ty * 0.5) ^ 2 - Real.sin (ty * 0.5) ^ 2)) * hZ

/-- C6: for Euler angles with `θx, θz` in `(−π, π]`, `θy` in
`(−π/2, π/2)`, and `cos θy` above the `8·eps` threshold (i.e. `θy`
bounded away from `±π/2`), building the quaternion `Rz * Ry * Rx` and
extracting `rotation_euler_angles` returns the original triple. -/
theorem c6_euler_round_trip (eps tx ty tz : ℝ)
    (htx : tx ∈ Set.Ioc (-Real.pi) Real.pi)
    (hty : ty ∈ Set.Ioo (-(Real.pi / 2)) (Real.pi / 2))
    (htz : tz ∈ Set.Ioc (-Real.pi) Real.pi)
    (heps : 8 * eps < Real.cos ty) :
    rotation_euler_angles eps (fromEuler tx ty tz) = ⟨tx, ty, tz⟩ := by
  have hcy_pos : 0 < Real.cos ty := Real.cos_pos_of_mem_Ioo ⟨hty.1, hty.2⟩
  rw [rotation_euler_angles_eq_spec]
  simp only [rotationEulerAnglesSpec]
  rw [fromEuler_m00, fromEuler_m01, fromEuler_m02, fromEuler_m12, fromEuler_m22]
  have hxy : Real.sqrt ((Real.cos ty * Real.cos tz) ^ 2 +
      (Real.cos ty * Real.sin tz) ^ 2) = Real.cos ty := by
    rw [show (Real.cos ty * Real.cos tz) ^ 2 + (Real.cos ty * Real.sin tz) ^ 2 =
        Real.cos ty ^ 2 by linear_combination (Real.cos ty ^ 2) * Real.sin_sq_add_cos_sq tz]
    exact Real.sqrt_sq hcy_pos.le
  rw [hxy, if_pos (show Real.cos ty > 8 * eps from heps)]
  refine Vec3.ext ?_ ?_ ?_
  · rw [show Real.sin tx * Real.cos ty = Real.cos ty * Real.sin tx by ring,
      show Real.cos tx * Real.cos ty = Real.cos ty * Real.cos tx by ring]
    exact atan2_smul_sin_cos (Real.cos ty) tx hcy_pos htx
  · rw [neg_neg, show Real.sin ty = 1 * Real.sin ty by ring,
      show Real.cos ty = 1 * Real.cos ty by ring]
    exact atan2_smul_sin_cos 1 ty one_pos
      ⟨by linarith [Real.pi_pos, hty.1], by linarith [Real.pi_pos, hty.2]⟩
  · exact atan2_smul_sin_cos (Real.cos ty) tz hcy_pos htz

/-- C6 witness: the zero Euler triple with `eps = 0`. -/
theorem c6_euler_round_trip_witness :
    (0:ℝ) ∈ Set.Ioc (-Real.pi) Real.pi ∧
    (0:ℝ) ∈ Set.Ioo (-(Real.pi / 2)) (Real.pi / 2) ∧
    8 * (0:ℝ) < Real.cos 0 ∧
    rotation_euler_angles 0 (fromEuler 0 0 0) = ⟨0, 0, 0⟩ := by
  have h1 : (0:ℝ) ∈ Set.Ioc (-Real.pi) Real.pi :=
    ⟨by linarith [Real.pi_pos], Real.pi_nonneg⟩
  have h2 : (0:ℝ) ∈ Set.Ioo (-(Real.pi / 2)) (Real.pi / 2) :=
    ⟨by linarith [Real.pi_pos], by linarith [Real.pi_pos]⟩
  have h3 : 8 * (0:ℝ) < Real.cos 0 := by norm_num [Real.cos_zero]
  exact ⟨h1, h2, h3, c6_euler_round_trip 0 0 0 0 h1 h2 h1 h3⟩
